import Mathlib

/-!
Verification of the item-merge tool (`Tools/merge_items.py`).

Shallow embedding conventions:
* Python strings are modelled as `List Char` (`PyStr`); string literals are
  written `"...".data`.
* Python dicts that the tool iterates over are modelled as association lists
  in insertion order; `dictFind` models `d[k]` / `k in d`, `dictInsert`
  models `d[k] = v` (update-in-place keeps the original position, as in
  CPython).
* Python float arithmetic in the fuzzy threshold `max(3, len * 0.2)` is
  modelled exactly in `ℚ` (for the integer operands involved the float
  computation is exact, so `0.2` is `1/5`).
* Fallible lookups return `Option`.
-/

abbrev PyStr := List Char

/-- Model of `normalize_name`: lower-case the name and strip every character outside
`[a-z0-9]` (the `re.sub(r"[^a-z0-9]", "", name.lower())` of the source). -/
def normalize_name (name : PyStr) : PyStr :=
  (name.map Char.toLower).filter fun c =>
    decide (('a' ≤ c ∧ c ≤ 'z') ∨ ('0' ≤ c ∧ c ≤ '9'))

/-- Inner loop of `levenshtein_distance`: given the previous DP row (as the
suffix starting at column `j`) and the last value written to the current row,
produce the rest of the current row.  `insertions = previous_row[j+1] + 1`,
`deletions = current_row[j] + 1`, `substitutions = previous_row[j] + (c1 != c2)`. -/
def levGo (c1 : Char) : List Char → List Nat → Nat → List Nat
  | [], _, _ => []
  | c2 :: cs, p0 :: p1 :: ps, last =>
      let v := min (p1 + 1) (min (last + 1) (p0 + (if c1 = c2 then 0 else 1)))
      v :: levGo c1 cs (p1 :: ps) v
  | _ :: _, _, _ => []

/-- Outer loop of `levenshtein_distance`: one iteration per character of `s1`,
threading the previous row; `current_row = [i + 1] ++ inner`. -/
def levRows (s2 : List Char) : List Char → List Nat → Nat → List Nat
  | [], prev, _ => prev
  | c1 :: cs, prev, i => levRows s2 cs ((i + 1) :: levGo c1 s2 prev (i + 1)) (i + 1)

/-- Body of `levenshtein_distance` after the argument swap: early return
`len(s1)` when `s2` is empty, otherwise run the rolling-row DP starting from
`range(len(s2) + 1)` and read `previous_row[-1]`. -/
def levCore (s1 s2 : List Char) : Nat :=
  if s2.length = 0 then s1.length
  else (levRows s2 s1 (List.range (s2.length + 1)) 0).getLast!

/-- Model of `levenshtein_distance`: swaps the arguments so the first is the longer,
then runs the rolling-row DP. -/
def levenshtein_distance (s1 s2 : PyStr) : Nat :=
  if s1.length < s2.length then levCore s2 s1 else levCore s1 s2

/-- First-match association-list lookup; models Python dict indexing
(`k in d` / `d[k]`, keys are unique in an actual dict). -/
def dictFind {α : Type} : List (PyStr × α) → PyStr → Option α
  | [], _ => none
  | (k, v) :: rest, key => if k = key then some v else dictFind rest key

/-- Python dict assignment `d[k] = v`: overwrite in place if the key exists
(keeping its position), otherwise append. -/
def dictInsert {α : Type} : List (PyStr × α) → PyStr → α → List (PyStr × α)
  | [], k, v => [(k, v)]
  | (k0, v0) :: rest, k, v =>
      if k0 = k then (k0, v) :: rest else (k0, v0) :: dictInsert rest k v

/-- The fuzzy-match acceptance test of `find_existing_item`:
`distance <= max(3, len(normalized) * 0.2)`, float arithmetic modelled in `ℚ`. -/
def fuzzyOk (len d : Nat) : Prop := (d : ℚ) ≤ max 3 ((len : ℚ) * 0.2)

instance fuzzyOk.dec (len d : Nat) : Decidable (fuzzyOk len d) :=
  decidable_of_iff (d ≤ 3 ∨ 5 * d ≤ len) (by
    have h02 : (0.2 : ℚ) = 1 / 5 := by norm_num
    rw [fuzzyOk, h02, le_max_iff]
    constructor
    · rintro (h | h)
      · left; exact_mod_cast h
      · right
        rw [mul_one_div, le_div_iff₀ (by norm_num : (0:ℚ) < 5)]
        exact_mod_cast (by omega : d * 5 ≤ len)
    · rintro (h | h)
      · left; exact_mod_cast h
      · right
        have h5 : (d : ℚ) * 5 ≤ len := by
          rwa [mul_one_div, le_div_iff₀ (by norm_num : (0:ℚ) < 5)] at h
        have h5n : d * 5 ≤ len := by exact_mod_cast h5
        omega)

/-- One iteration of the fuzzy-match loop of `find_existing_item`: the state
is `(best_match, best_distance)` (`none` stands for the initial
`best_match = None, best_distance = inf`); update on
`distance < best_distance and distance <= max_distance`. -/
def fuzzyStep {α : Type} (normalized : PyStr) (best : Option (α × Nat))
    (kv : PyStr × α) : Option (α × Nat) :=
  let distance := levenshtein_distance normalized kv.1
  match best with
  | none =>
      if fuzzyOk normalized.length distance then some (kv.2, distance) else none
  | some (bm, bd) =>
      if distance < bd ∧ fuzzyOk normalized.length distance then some (kv.2, distance)
      else some (bm, bd)

/-- Model of `find_existing_item`: normalize the name, try the exact dict lookup, then
fall back to the fuzzy loop over the index in iteration order, returning
`best_match` (absent when no candidate was accepted). -/
def find_existing_item {α : Type} (name : PyStr)
    (existing_items_by_name : List (PyStr × α)) : Option α :=
  let normalized := normalize_name name
  match dictFind existing_items_by_name normalized with
  | some item => some item
  | none => (existing_items_by_name.foldl (fuzzyStep normalized) none).map Prod.fst

/-- The static `CATEGORY_MAP` of the source, in declaration order. -/
def CATEGORY_MAP : List (PyStr × PyStr) :=
  [("Basic Material".data, "Material".data),
   ("Refined Material".data, "Component".data),
   ("Consumable".data, "Consumable".data),
   ("Quick Use".data, "Consumable".data),
   ("Tool".data, "Material".data),
   ("Weapon".data, "Weapon".data),
   ("Attachment".data, "Attachment".data),
   ("Key".data, "Quest".data),
   ("Quest Item".data, "Quest".data),
   ("Armor".data, "Armor".data),
   ("Armor Plate".data, "Armor".data),
   ("Helmet Plate".data, "Armor".data),
   ("Blueprint".data, "Blueprint".data),
   ("Color".data, "Cosmetic".data),
   ("Valuable".data, "Valuable".data),
   ("Ammo".data, "Ammo".data),
   ("Grenade".data, "Consumable".data),
   ("Trap".data, "Consumable".data),
   ("Food".data, "Consumable".data),
   ("Drink".data, "Consumable".data)]

/-- Python `str.title()` restricted to ASCII: upper-case every letter that
follows a non-letter, lower-case the other letters. -/
def titleCaseGo : List Char → Bool → List Char
  | [], _ => []
  | c :: cs, prevAlpha =>
      (if c.isAlpha then (if prevAlpha then c.toLower else c.toUpper) else c)
        :: titleCaseGo cs c.isAlpha

def titleCase (s : PyStr) : PyStr := titleCaseGo s false

/-- Model of `id_to_display_name`: table lookup with a snake_case → Title Case
fallback (`item_id.replace("_", " ").title()`). -/
def id_to_display_name (item_id : PyStr) (id_to_name_map : List (PyStr × PyStr)) : PyStr :=
  match dictFind id_to_name_map item_id with
  | some name => name
  | none => titleCase (item_id.map fun c => if c = '_' then ' ' else c)

/-- Python `s.split(",")` (non-empty single-character separator). -/
def splitComma : List Char → List (List Char)
  | [] => [[]]
  | c :: cs =>
      let r := splitComma cs
      if c = ',' then [] :: r
      else
        match r with
        | [] => [[c]]
        | h :: t => (c :: h) :: t

/-- Python `str.strip()`: drop leading and trailing whitespace. -/
def pyStrip (l : PyStr) : PyStr :=
  ((l.dropWhile Char.isWhitespace).reverse.dropWhile Char.isWhitespace).reverse

/-- Model of `parse_found_in`: empty input gives the empty list, otherwise split on
commas, strip each fragment, and keep the non-empty ones. -/
def parse_found_in (found_in_str : PyStr) : List PyStr :=
  if found_in_str = [] then []
  else ((splitComma found_in_str).map pyStrip).filter fun loc => decide (loc ≠ [])

/-- A raw RaidTheory record.  Optional fields are `Option`-valued; the
defaults applied by the source's `.get(...)` calls live at the use sites.
The localized `name`/`description` dicts are modelled by their only consumed
entry, the `"en"` one (absent dict and absent entry both give `none`, and
both yield `""` in the source). -/
structure RawItem where
  id : PyStr := []
  name_en : Option PyStr := none
  description_en : Option PyStr := none
  type : Option PyStr := none
  rarity : Option PyStr := none
  value : Option Int := none
  weightKg : Option ℚ := none
  stackSize : Option Int := none
  recyclesInto : List (PyStr × Int) := []
  foundIn : Option PyStr := none
  imageFilename : Option PyStr := none

/-- A record of the local `items.json` schema. -/
structure LocalItem where
  name : PyStr := []
  category : PyStr := []
  rarity : PyStr := []
  value : Int := 0
  description : PyStr := []
  weight : ℚ := 0
  stackSize : Int := 1
  recycleValuePercent : Option ℚ := none
  recycleOutputs : Option (List (PyStr × Int)) := none
  foundIn : Option (List PyStr) := none
  imageUrl : Option PyStr := none
  projectUses : List PyStr := []
  workshopUses : List PyStr := []
  keepForQuests : Bool := false
  questUses : List PyStr := []
  recommendation : PyStr := []

/-- Model of `auto_recommend`: the ordered decision list generating a recommendation
for brand-new items. -/
def auto_recommend (item : RawItem) : PyStr :=
  let item_type := item.type.getD []
  let rarity := item.rarity.getD "Common".data
  if item_type ∈ ["Key".data, "Quest Item".data] then "Keep".data
  else if item_type = "Valuable".data then "Sell".data
  else if rarity ∈ ["Rare".data, "Epic".data, "Legendary".data] then "Keep".data
  else if item_type ∈ ["Quick Use".data, "Consumable".data] then "Keep".data
  else if item.recyclesInto ≠ [] then "Recycle".data
  else if item_type ∈ ["Weapon".data, "Armor".data, "Armor Plate".data,
                       "Helmet Plate".data, "Attachment".data] then "Keep".data
  else "Either".data

/-- One iteration of the loop building `recycle_outputs`:
`if count > 0: recycle_outputs[display_name] = count`. -/
def recStep (id_to_name_map : List (PyStr × PyStr)) (acc : List (PyStr × Int))
    (p : PyStr × Int) : List (PyStr × Int) :=
  if 0 < p.2 then dictInsert acc (id_to_display_name p.1 id_to_name_map) p.2 else acc

/-- The loop building `recycle_outputs`: insert the resolved display name of
every strictly-positive entry, in iteration order. -/
def buildRecycleOutputs (recycles_into : List (PyStr × Int))
    (id_to_name_map : List (PyStr × PyStr)) : List (PyStr × Int) :=
  recycles_into.foldl (recStep id_to_name_map) []

/-- Model of `transform_item`: map one raw record into the local schema, consulting
the id→name table and the optional matched existing record. -/
def transform_item (rt_item : RawItem) (id_to_name_map : List (PyStr × PyStr))
    (existing_item : Option LocalItem := none) : LocalItem :=
  let name := rt_item.name_en.getD []
  let description := rt_item.description_en.getD []
  let rt_type := rt_item.type.getD "Material".data
  let category := (dictFind CATEGORY_MAP rt_type).getD "Material".data
  let recycles_into := rt_item.recyclesInto
  let recycle_outputs : Option (List (PyStr × Int)) :=
    if recycles_into ≠ [] then
      let m := buildRecycleOutputs recycles_into id_to_name_map
      if m = [] then none else some m
    else none
  let found_in := parse_found_in (rt_item.foundIn.getD [])
  let base : LocalItem :=
    { name := name
      category := category
      rarity := rt_item.rarity.getD "Common".data
      value := rt_item.value.getD 0
      description := description
      weight := rt_item.weightKg.getD 0.1
      stackSize := rt_item.stackSize.getD 1
      recycleValuePercent := none
      recycleOutputs := recycle_outputs
      foundIn := if found_in ≠ [] then some found_in else none
      imageUrl := rt_item.imageFilename }
  match existing_item with
  | some e =>
      { base with
        projectUses := e.projectUses
        workshopUses := e.workshopUses
        keepForQuests := e.keepForQuests
        questUses := e.questUses
        recommendation := e.recommendation
        recycleValuePercent :=
          if e.recycleValuePercent ≠ none then e.recycleValuePercent else none }
  | none =>
      { base with
        projectUses := []
        workshopUses := []
        keepForQuests := false
        questUses := []
        recommendation := auto_recommend rt_item }

/-- Python string `<=` (lexicographic by code point), used as the sort key
comparison of the orchestrator. -/
def pyle : List Char → List Char → Bool
  | [], _ => true
  | _ :: _, [] => false
  | a :: as, b :: bs =>
      if a < b then true else if b < a then false else pyle as bs

/-- The comparison of `merged_items.sort(key=lambda x: x["name"].lower())`. -/
def byNameLower (a b : LocalItem) : Prop :=
  pyle (a.name.map Char.toLower) (b.name.map Char.toLower) = true

instance byNameLower.dec : DecidableRel byNameLower :=
  fun _ _ => instDecidableEqBool _ _

structure MergeStats where
  updated : Nat := 0
  added : Nat := 0
  skipped : Nat := 0

/-- Phase 2 of `main`: id → English name table, skipping unnamed records. -/
def build_id_to_name (rt_items : List (PyStr × RawItem)) : List (PyStr × PyStr) :=
  rt_items.foldl
    (fun m p =>
      let name := p.2.name_en.getD []
      if name ≠ [] then dictInsert m p.1 name else m) []

/-- Phase 3 of `main`: index existing items by normalized name, skipping
empty keys (last write wins on collisions, as for a Python dict). -/
def build_existing_by_name (existing_items : List LocalItem) : List (PyStr × LocalItem) :=
  existing_items.foldl
    (fun m it =>
      let norm := normalize_name it.name
      if norm ≠ [] then dictInsert m norm it else m) []

/-- The body of the phase-4 merge loop of `main`: skip unnamed records
(counting them), otherwise match, transform, append, and count
updated/added. -/
def mergeStep (existing_by_name : List (PyStr × LocalItem))
    (id_to_name_map : List (PyStr × PyStr)) (acc : List LocalItem × MergeStats)
    (p : PyStr × RawItem) : List LocalItem × MergeStats :=
  let name := p.2.name_en.getD []
  if name = [] then (acc.1, { acc.2 with skipped := acc.2.skipped + 1 })
  else
    let existing := find_existing_item name existing_by_name
    let merged := transform_item p.2 id_to_name_map existing
    match existing with
    | some _ => (acc.1 ++ [merged], { acc.2 with updated := acc.2.updated + 1 })
    | none => (acc.1 ++ [merged], { acc.2 with added := acc.2.added + 1 })

/-- Phases 2–4 of `main` (the pure merge computation): build the lookup
tables, merge every named raw record, and sort by lower-cased name.  The
sort models Python's stable `list.sort(key=...)`; a stable sort by a total
preorder is a function of the comparison and the input order, so insertion
sort computes the same list. -/
def mergeRun (rt_items : List (PyStr × RawItem)) (existing_items : List LocalItem) :
    List LocalItem × MergeStats :=
  let id_to_name_map := build_id_to_name rt_items
  let existing_by_name := build_existing_by_name existing_items
  let res := rt_items.foldl (mergeStep existing_by_name id_to_name_map) ([], {})
  (List.insertionSort byNameLower res.1, res.2)

/-! ## Auxiliary definitions used only by the proofs -/

/-- Textbook Levenshtein recursion (cons form), the reference against which
the rolling-row implementation is verified. -/
def levRef : List Char → List Char → Nat
  | [], ys => ys.length
  | xs, [] => xs.length
  | x :: xs, y :: ys =>
      min (levRef xs (y :: ys) + 1)
        (min (levRef (x :: xs) ys + 1) (levRef xs ys + (if x = y then 0 else 1)))
termination_by xs ys => xs.length + ys.length

/-- Levenshtein distance in append form: the DP's cell recurrence. -/
def levD (a b : List Char) : Nat := levRef a.reverse b.reverse

/-- The DP row for left prefix `xs`, as a function of the already-consumed
part `u` of `s2` and the rest `t`: the entries `levD xs (u ++ take j t)`. -/
def rowAux (xs : List Char) : List Char → List Char → List Nat
  | u, [] => [levD xs u]
  | u, c :: t => levD xs u :: rowAux xs (u ++ [c]) t

/-- Loop invariant of the fuzzy loop: `none` means no candidate so far passed
the threshold; `some (b, bd)` means `b` is the first entry among `processed`
attaining the minimal accepted distance `bd`. -/
def fuzzyInv {α : Type} (q : PyStr) (processed : List (PyStr × α)) :
    Option (α × Nat) → Prop
  | none => ∀ p ∈ processed, ¬ fuzzyOk q.length (levenshtein_distance q p.1)
  | some (b, bd) => ∃ l1 k l2, processed = l1 ++ (k, b) :: l2 ∧
      levenshtein_distance q k = bd ∧ fuzzyOk q.length bd ∧
      (∀ p ∈ l1, fuzzyOk q.length (levenshtein_distance q p.1) →
        bd < levenshtein_distance q p.1) ∧
      (∀ p ∈ l2, fuzzyOk q.length (levenshtein_distance q p.1) →
        bd ≤ levenshtein_distance q p.1)

/-! ## Concrete inputs used by the witnesses and counterexamples -/

/-- A raw record whose `recyclesInto` is non-empty but has no positive count
(type/rarity chosen so that none of decision rules 1–4 applies). -/
def rawAllZeroRecycle : RawItem :=
  { type := some "Tool".data
    rarity := some "Common".data
    recyclesInto := [("x".data, 0)] }

/-- A raw record with one positive-count and one zero-count recycle entry. -/
def rawMixedRecycle : RawItem :=
  { recyclesInto := [("scrap_metal".data, 2), ("dust".data, 0)] }

/-- Raw input of the output-ordering example. -/
def rawOrderItems : List (PyStr × RawItem) :=
  [("z1".data, { name_en := some "Zed Core".data }),
   ("a1".data, { name_en := some "Apple Seed".data }),
   ("m1".data, { name_en := some "mango".data })]

/-! ## Correctness of the rolling-row Levenshtein implementation

`levRef` is the textbook recursion; `levD a b = levRef a.reverse b.reverse`
satisfies the append-form recurrence the DP uses, which lets a row invariant
show `levCore = levD`. -/

theorem levRef_nil_left (ys : List Char) : levRef [] ys = ys.length := by
  cases ys <;> simp [levRef]

theorem levRef_nil_right (xs : List Char) : levRef xs [] = xs.length := by
  cases xs <;> simp [levRef]

theorem levRef_self (xs : List Char) : levRef xs xs = 0 := by
  induction xs with
  | nil => simp [levRef]
  | cons x xs ih => simp [levRef, ih]

theorem levRef_comm (xs : List Char) : ∀ ys : List Char, levRef xs ys = levRef ys xs := by
  induction xs with
  | nil => intro ys; rw [levRef_nil_left, levRef_nil_right]
  | cons x xs ih =>
    intro ys
    induction ys with
    | nil => rw [levRef_nil_left, levRef_nil_right]
    | cons y ys ihy =>
      have hc : (if x = y then 0 else 1) = (if y = x then 0 else 1) := by
        by_cases h : x = y
        · simp [h]
        · rw [if_neg h, if_neg (fun hyx => h hyx.symm)]
      simp only [levRef, ih (y :: ys), ih ys, ihy, hc]
      omega

theorem levD_nil_left (b : List Char) : levD [] b = b.length := by
  simp [levD, levRef_nil_left]

theorem levD_nil_right (a : List Char) : levD a [] = a.length := by
  simp [levD, levRef_nil_right]

theorem levD_self (a : List Char) : levD a a = 0 := by
  simp [levD, levRef_self]

theorem levD_comm (a b : List Char) : levD a b = levD b a := by
  simp [levD, levRef_comm]

theorem levD_append (xs ys : List Char) (c d : Char) :
    levD (xs ++ [c]) (ys ++ [d]) =
      min (levD xs (ys ++ [d]) + 1)
        (min (levD (xs ++ [c]) ys + 1) (levD xs ys + (if c = d then 0 else 1))) := by
  simp only [levD, List.reverse_append, List.reverse_cons, List.reverse_nil,
    List.nil_append, List.singleton_append]
  rw [levRef]

theorem rowAux_head_tail (xs u t : List Char) :
    rowAux xs u t = levD xs u :: (rowAux xs u t).tail := by
  cases t <;> simp [rowAux]

theorem getLastBang_singleton (a : Nat) : ([a] : List Nat).getLast! = a := rfl

theorem getLastBang_cons (a b : Nat) (l : List Nat) :
    (a :: b :: l).getLast! = (b :: l).getLast! := rfl

theorem levGo_rowAux (c1 : Char) (xs : List Char) :
    ∀ (t u : List Char) (last : Nat), last = levD (xs ++ [c1]) u →
      levGo c1 t (rowAux xs u t) last = (rowAux (xs ++ [c1]) u t).tail := by
  intro t
  induction t with
  | nil =>
    intro u last _
    simp [rowAux, levGo]
  | cons c2 t ih =>
    intro u last hlast
    rw [rowAux, rowAux_head_tail xs (u ++ [c2]) t]
    rw [levGo]
    have hv : min (levD xs (u ++ [c2]) + 1)
        (min (last + 1) (levD xs u + (if c1 = c2 then 0 else 1)))
        = levD (xs ++ [c1]) (u ++ [c2]) := by
      rw [hlast]; exact (levD_append xs u c1 c2).symm
    rw [hv, ← rowAux_head_tail xs (u ++ [c2]) t, ih (u ++ [c2]) _ rfl]
    rw [← rowAux_head_tail (xs ++ [c1]) (u ++ [c2]) t]
    rfl

theorem levRows_rowAux (s2 : List Char) :
    ∀ (cs xs : List Char) (prev : List Nat) (i : Nat),
      prev = rowAux xs [] s2 → i = xs.length →
      levRows s2 cs prev i = rowAux (xs ++ cs) [] s2 := by
  intro cs
  induction cs with
  | nil =>
    intro xs prev i hprev _
    simp [levRows, hprev]
  | cons c1 cs ih =>
    intro xs prev i hprev hi
    subst hprev
    rw [levRows]
    have h1 : i + 1 = levD (xs ++ [c1]) [] := by
      rw [levD_nil_right, hi]; simp
    have h2 : levGo c1 s2 (rowAux xs [] s2) (i + 1)
        = (rowAux (xs ++ [c1]) [] s2).tail :=
      levGo_rowAux c1 xs s2 [] (i + 1) h1
    have h3 : (i + 1) :: (rowAux (xs ++ [c1]) [] s2).tail
        = rowAux (xs ++ [c1]) [] s2 := by
      rw [h1]; exact (rowAux_head_tail (xs ++ [c1]) [] s2).symm
    rw [h2, h3]
    rw [ih (xs ++ [c1]) _ _ rfl (by rw [hi]; simp)]
    simp

theorem rowAux_getLast (xs : List Char) :
    ∀ (t u : List Char), (rowAux xs u t).getLast! = levD xs (u ++ t) := by
  intro t
  induction t with
  | nil => intro u; simp [rowAux, getLastBang_singleton]
  | cons c t ih =>
    intro u
    rw [rowAux, rowAux_head_tail xs (u ++ [c]) t, getLastBang_cons,
      ← rowAux_head_tail xs (u ++ [c]) t, ih (u ++ [c])]
    simp

theorem rowAux_range (t : List Char) :
    ∀ u : List Char, rowAux [] u t = List.range' u.length (t.length + 1) := by
  induction t with
  | nil => intro u; simp [rowAux, levD_nil_left, List.range'_one]
  | cons c t ih =>
    intro u
    rw [rowAux, levD_nil_left, ih (u ++ [c])]
    conv_rhs => rw [List.range'_succ]
    simp

theorem levCore_eq (s1 s2 : List Char) : levCore s1 s2 = levD s1 s2 := by
  rw [levCore]
  by_cases h : s2.length = 0
  · have hs : s2 = [] := List.length_eq_zero.mp h
    subst hs
    simp [levD_nil_right]
  · simp only [h, if_false]
    have hinit : List.range (s2.length + 1) = rowAux [] [] s2 := by
      rw [rowAux_range s2 [], List.range_eq_range']
      rfl
    rw [hinit, levRows_rowAux s2 s1 [] _ 0 rfl rfl, rowAux_getLast]
    rfl

theorem levenshtein_distance_eq (s1 s2 : PyStr) :
    levenshtein_distance s1 s2 = levD s1 s2 := by
  rw [levenshtein_distance]
  split
  · rw [levCore_eq, levD_comm]
  · rw [levCore_eq]

theorem lev_self (s : PyStr) : levenshtein_distance s s = 0 := by
  rw [levenshtein_distance_eq, levD_self]

theorem lev_comm (a b : PyStr) :
    levenshtein_distance a b = levenshtein_distance b a := by
  rw [levenshtein_distance_eq, levenshtein_distance_eq, levD_comm]

theorem lev_nil_left (b : PyStr) : levenshtein_distance [] b = b.length := by
  rw [levenshtein_distance_eq, levD_nil_left]

theorem lev_nil_right (a : PyStr) : levenshtein_distance a [] = a.length := by
  rw [levenshtein_distance_eq, levD_nil_right]

/-! ## Characterisation of the fuzzy-match loop -/

theorem fuzzyOk_iff (len d : Nat) : fuzzyOk len d ↔ (d ≤ 3 ∨ 5 * d ≤ len) := by
  have h02 : (0.2 : ℚ) = 1 / 5 := by norm_num
  rw [fuzzyOk, h02, le_max_iff]
  constructor
  · rintro (h | h)
    · left; exact_mod_cast h
    · right
      have h5 : (d : ℚ) * 5 ≤ len := by
        rwa [mul_one_div, le_div_iff₀ (by norm_num : (0:ℚ) < 5)] at h
      have h5n : d * 5 ≤ len := by exact_mod_cast h5
      omega
  · rintro (h | h)
    · left; exact_mod_cast h
    · right
      rw [mul_one_div, le_div_iff₀ (by norm_num : (0:ℚ) < 5)]
      exact_mod_cast (by omega : d * 5 ≤ len)

theorem fuzzyStep_inv {α : Type} (q : PyStr) (processed : List (PyStr × α))
    (st : Option (α × Nat)) (kv : PyStr × α) (h : fuzzyInv q processed st) :
    fuzzyInv q (processed ++ [kv]) (fuzzyStep q st kv) := by
  match st with
  | none =>
    rw [fuzzyStep]
    by_cases hok : fuzzyOk q.length (levenshtein_distance q kv.1)
    · simp only [hok, if_true]
      refine ⟨processed, kv.1, [], by simp, rfl, hok, ?_, by simp⟩
      intro p hp hpok
      exact absurd hpok (h p hp)
    · simp only [hok, if_false]
      intro p hp
      rcases List.mem_append.mp hp with hl | hr
      · exact h p hl
      · have : p = kv := by simpa using hr
        rw [this]
        exact hok
  | some (bm, bd) =>
    rw [fuzzyStep]
    obtain ⟨l1, k0, l2, hsplit, hdist, hbdok, hl1, hl2⟩ := h
    by_cases hcond : levenshtein_distance q kv.1 < bd ∧
        fuzzyOk q.length (levenshtein_distance q kv.1)
    · simp only [hcond, if_true]
      refine ⟨processed, kv.1, [], by simp, rfl, hcond.2, ?_, by simp⟩
      intro p hp hpok
      rw [hsplit] at hp
      rcases List.mem_append.mp hp with hl | hr
      · exact lt_trans hcond.1 (hdist ▸ hl1 p hl hpok)
      · rcases List.mem_cons.mp hr with he | hm
        · rw [he]
          simpa [hdist] using hcond.1
        · exact lt_of_lt_of_le hcond.1 (hdist ▸ hl2 p hm hpok)
    · simp only [hcond, if_false]
      refine ⟨l1, k0, l2 ++ [kv], by rw [hsplit]; simp, hdist, hbdok, hl1, ?_⟩
      intro p hp hpok
      rcases List.mem_append.mp hp with hl | hr
      · exact hl2 p hl hpok
      · have hpkv : p = kv := by simpa using hr
        rw [hpkv]
        by_contra hlt
        exact hcond ⟨by omega, hpkv ▸ hpok⟩

theorem fuzzyFold_inv {α : Type} (q : PyStr) :
    ∀ (l processed : List (PyStr × α)) (st : Option (α × Nat)),
      fuzzyInv q processed st →
      fuzzyInv q (processed ++ l) (l.foldl (fuzzyStep q) st) := by
  intro l
  induction l with
  | nil => intro processed st h; simpa using h
  | cons kv l ih =>
    intro processed st h
    rw [List.foldl_cons]
    have := ih (processed ++ [kv]) (fuzzyStep q st kv) (fuzzyStep_inv q processed st kv h)
    simpa using this

theorem fuzzy_result {α : Type} (q : PyStr) (index : List (PyStr × α)) :
    fuzzyInv q index (index.foldl (fuzzyStep q) none) := by
  have hbase : fuzzyInv q ([] : List (PyStr × α)) none := by
    intro p hp
    exact absurd hp (List.not_mem_nil p)
  simpa using fuzzyFold_inv q index [] none hbase

theorem dictFind_eq_none_of {α : Type} (index : List (PyStr × α)) (q : PyStr)
    (h : ∀ p ∈ index, p.1 ≠ q) : dictFind index q = none := by
  induction index with
  | nil => rfl
  | cons kv rest ih =>
    rw [dictFind.eq_def]
    simp only
    rw [if_neg (h kv (List.mem_cons_self kv rest))]
    exact ih fun p hp => h p (List.mem_cons_of_mem kv hp)

theorem find_exact {α : Type} (name : PyStr) (index : List (PyStr × α)) (it : α)
    (h : dictFind index (normalize_name name) = some it) :
    find_existing_item name index = some it := by
  rw [find_existing_item, h]

theorem find_fuzzy_some {α : Type} (name : PyStr) (index : List (PyStr × α)) (a : α)
    (hex : dictFind index (normalize_name name) = none)
    (h : find_existing_item name index = some a) :
    ∃ l1 k l2, index = l1 ++ (k, a) :: l2 ∧
      fuzzyOk (normalize_name name).length
        (levenshtein_distance (normalize_name name) k) ∧
      (∀ p ∈ l1, fuzzyOk (normalize_name name).length
          (levenshtein_distance (normalize_name name) p.1) →
        levenshtein_distance (normalize_name name) k
          < levenshtein_distance (normalize_name name) p.1) ∧
      (∀ p ∈ l2, fuzzyOk (normalize_name name).length
          (levenshtein_distance (normalize_name name) p.1) →
        levenshtein_distance (normalize_name name) k
          ≤ levenshtein_distance (normalize_name name) p.1) := by
  rw [find_existing_item, hex] at h
  cases hfold : index.foldl (fuzzyStep (normalize_name name)) none with
  | none => rw [hfold] at h; simp at h
  | some pair =>
    rw [hfold] at h
    obtain ⟨b, bd⟩ := pair
    have hb : b = a := by simpa using h
    subst hb
    have hinv := fuzzy_result (normalize_name name) index
    rw [hfold] at hinv
    obtain ⟨l1, k, l2, hsplit, hdist, hok, hl1, hl2⟩ := hinv
    exact ⟨l1, k, l2, hsplit, hdist ▸ hok, fun p hp hpok => hdist ▸ hl1 p hp hpok,
      fun p hp hpok => hdist ▸ hl2 p hp hpok⟩

theorem find_fuzzy_none {α : Type} (name : PyStr) (index : List (PyStr × α))
    (hex : dictFind index (normalize_name name) = none)
    (hall : ∀ p ∈ index, ¬ fuzzyOk (normalize_name name).length
      (levenshtein_distance (normalize_name name) p.1)) :
    find_existing_item name index = none := by
  rw [find_existing_item, hex]
  cases hfold : index.foldl (fuzzyStep (normalize_name name)) none with
  | none => simp
  | some pair =>
    obtain ⟨b, bd⟩ := pair
    have hinv := fuzzy_result (normalize_name name) index
    rw [hfold] at hinv
    obtain ⟨l1, k, l2, hsplit, hdist, hok, -, -⟩ := hinv
    have hk : (k, b) ∈ index := by
      rw [hsplit]
      exact List.mem_append.mpr (Or.inr (List.mem_cons_self _ _))
    exact absurd (hdist ▸ hok) (hall (k, b) hk)

/-! ## The `recycle_outputs` dict build -/

theorem dictInsert_ne_nil {α : Type} (m : List (PyStr × α)) (k : PyStr) (v : α) :
    dictInsert m k v ≠ [] := by
  cases m with
  | nil => simp [dictInsert]
  | cons kv rest =>
    rw [dictInsert.eq_def]
    obtain ⟨k0, v0⟩ := kv
    by_cases h : k0 = k <;> simp [h]

theorem dictInsert_mem {α : Type} (m : List (PyStr × α)) (k : PyStr) (v : α) :
    ∀ p ∈ dictInsert m k v, p ∈ m ∨ p = (k, v) := by
  induction m with
  | nil => simp [dictInsert]
  | cons kv rest ih =>
    obtain ⟨k0, v0⟩ := kv
    intro p hp
    rw [dictInsert.eq_def] at hp
    simp only at hp
    by_cases h : k0 = k
    · rw [if_pos h] at hp
      rcases List.mem_cons.mp hp with he | hm
      · right; rw [he, h]
      · left; exact List.mem_cons_of_mem _ hm
    · rw [if_neg h] at hp
      rcases List.mem_cons.mp hp with he | hm
      · left; rw [he]; exact List.mem_cons_self _ _
      · rcases ih p hm with h1 | h2
        · left; exact List.mem_cons_of_mem _ h1
        · right; exact h2

theorem dictInsert_mem_self {α : Type} (m : List (PyStr × α)) (k : PyStr) (v : α) :
    (k, v) ∈ dictInsert m k v := by
  induction m with
  | nil => simp [dictInsert]
  | cons kv rest ih =>
    obtain ⟨k0, v0⟩ := kv
    rw [dictInsert.eq_def]
    simp only
    by_cases h : k0 = k
    · rw [if_pos h, h]
      exact List.mem_cons_self _ _
    · rw [if_neg h]
      exact List.mem_cons_of_mem _ ih

theorem dictInsert_hasKey_mono {α : Type} (m : List (PyStr × α)) (k kq : PyStr)
    (v w : α) (h : (kq, w) ∈ m) : ∃ u, (kq, u) ∈ dictInsert m k v := by
  induction m with
  | nil => exact absurd h (List.not_mem_nil _)
  | cons kv rest ih =>
    obtain ⟨k0, v0⟩ := kv
    rw [dictInsert.eq_def]
    simp only
    by_cases hk : k0 = k
    · rw [if_pos hk]
      rcases List.mem_cons.mp h with he | hm
      · have : kq = k0 := (Prod.mk.injEq .. ▸ he).1
        exact ⟨v, this ▸ List.mem_cons_self _ _⟩
      · exact ⟨w, List.mem_cons_of_mem _ hm⟩
    · rw [if_neg hk]
      rcases List.mem_cons.mp h with he | hm
      · refine ⟨v0, ?_⟩
        rw [show kq = k0 from (Prod.ext_iff.mp he).1]
        exact List.mem_cons_self _ _
      · obtain ⟨u, hu⟩ := ih hm
        exact ⟨u, List.mem_cons_of_mem _ hu⟩

theorem recFold_mem (rmap : List (PyStr × PyStr)) :
    ∀ (l acc : List (PyStr × Int)), ∀ p ∈ l.foldl (recStep rmap) acc,
      p ∈ acc ∨ ∃ id, (id, p.2) ∈ l ∧ 0 < p.2 ∧ id_to_display_name id rmap = p.1 := by
  intro l
  induction l with
  | nil => intro acc p hp; left; simpa using hp
  | cons q l ih =>
    intro acc p hp
    rw [List.foldl_cons] at hp
    rcases ih (recStep rmap acc q) p hp with hstep | ⟨id, hid, hpos, hres⟩
    · rw [recStep] at hstep
      by_cases hq : 0 < q.2
      · rw [if_pos hq] at hstep
        rcases dictInsert_mem acc _ _ p hstep with hacc | heq
        · left; exact hacc
        · right
          refine ⟨q.1, ?_, ?_, ?_⟩
          · have h2 : p.2 = q.2 := by rw [heq]
            rw [h2]
            exact List.mem_cons_self _ _
          · have h2 : p.2 = q.2 := by rw [heq]
            rw [h2]; exact hq
          · rw [heq]
      · rw [if_neg hq] at hstep
        left; exact hstep
    · right
      exact ⟨id, List.mem_cons_of_mem _ hid, hpos, hres⟩

theorem recFold_hasKey_mono (rmap : List (PyStr × PyStr)) :
    ∀ (l acc : List (PyStr × Int)) (k : PyStr) (w : Int), (k, w) ∈ acc →
      ∃ u, (k, u) ∈ l.foldl (recStep rmap) acc := by
  intro l
  induction l with
  | nil => intro acc k w h; exact ⟨w, h⟩
  | cons q l ih =>
    intro acc k w h
    rw [List.foldl_cons, recStep]
    by_cases hq : 0 < q.2
    · rw [if_pos hq]
      obtain ⟨u, hu⟩ := dictInsert_hasKey_mono acc (id_to_display_name q.1 rmap) k q.2 w h
      exact ih _ k u hu
    · rw [if_neg hq]
      exact ih _ k w h

theorem recFold_covers (rmap : List (PyStr × PyStr)) :
    ∀ (l acc : List (PyStr × Int)), ∀ q ∈ l, 0 < q.2 →
      ∃ u, (id_to_display_name q.1 rmap, u) ∈ l.foldl (recStep rmap) acc := by
  intro l
  induction l with
  | nil => intro acc q hq; exact absurd hq (List.not_mem_nil _)
  | cons r l ih =>
    intro acc q hq hpos
    rw [List.foldl_cons]
    rcases List.mem_cons.mp hq with he | hm
    · subst he
      rw [recStep, if_pos hpos]
      exact recFold_hasKey_mono rmap l _ _ q.2
        (dictInsert_mem_self acc (id_to_display_name q.1 rmap) q.2)
    · exact ih _ q hm hpos

theorem recFold_id_of_nonpos (rmap : List (PyStr × PyStr)) :
    ∀ (l acc : List (PyStr × Int)), (∀ q ∈ l, q.2 ≤ 0) →
      l.foldl (recStep rmap) acc = acc := by
  intro l
  induction l with
  | nil => intro acc _; rfl
  | cons q l ih =>
    intro acc h
    rw [List.foldl_cons, recStep,
      if_neg (by have := h q (List.mem_cons_self _ _); omega)]
    exact ih acc fun r hr => h r (List.mem_cons_of_mem _ hr)

theorem recFold_nil (rmap : List (PyStr × PyStr)) :
    ∀ (l acc : List (PyStr × Int)), l.foldl (recStep rmap) acc = [] →
      acc = [] ∧ ∀ q ∈ l, q.2 ≤ 0 := by
  intro l
  induction l with
  | nil => intro acc h; exact ⟨h, by simp⟩
  | cons q l ih =>
    intro acc h
    rw [List.foldl_cons] at h
    obtain ⟨hstep, hrest⟩ := ih _ h
    rw [recStep] at hstep
    by_cases hq : 0 < q.2
    · rw [if_pos hq] at hstep
      exact absurd hstep (dictInsert_ne_nil acc _ _)
    · rw [if_neg hq] at hstep
      refine ⟨hstep, ?_⟩
      intro r hr
      rcases List.mem_cons.mp hr with he | hm
      · subst he; omega
      · exact hrest r hm

/-- The `recycleOutputs` field of the output does not depend on the
`existing` argument. -/
theorem transform_item_recycleOutputs (rt : RawItem) (rmap : List (PyStr × PyStr))
    (ex : Option LocalItem) :
    (transform_item rt rmap ex).recycleOutputs =
      (if rt.recyclesInto ≠ [] then
        (if buildRecycleOutputs rt.recyclesInto rmap = [] then none
         else some (buildRecycleOutputs rt.recyclesInto rmap))
       else none) := by
  cases ex <;> rfl

/-! ## The output sort -/

theorem pyle_cons (x y : Char) (xs ys : List Char) :
    pyle (x :: xs) (y :: ys) = true ↔ (x < y ∨ (x = y ∧ pyle xs ys = true)) := by
  simp only [pyle]
  by_cases h1 : x < y
  · simp [h1]
  · by_cases h2 : y < x
    · simp only [if_neg h1, if_pos h2]
      constructor
      · intro h; exact absurd h (by simp)
      · rintro (h | ⟨he, -⟩)
        · exact absurd h h1
        · exact absurd (he ▸ h2) (lt_irrefl x)
    · have he : x = y := le_antisymm (not_lt.mp h2) (not_lt.mp h1)
      simp [h1, h2, he]

theorem pyle_total (a : List Char) : ∀ b, pyle a b = true ∨ pyle b a = true := by
  induction a with
  | nil => intro b; left; rfl
  | cons x xs ih =>
    intro b
    cases b with
    | nil => right; rfl
    | cons y ys =>
      rcases lt_trichotomy x y with h | h | h
      · left; exact (pyle_cons ..).mpr (Or.inl h)
      · rcases ih ys with hx | hx
        · left; exact (pyle_cons ..).mpr (Or.inr ⟨h, hx⟩)
        · right; exact (pyle_cons ..).mpr (Or.inr ⟨h.symm, hx⟩)
      · right; exact (pyle_cons ..).mpr (Or.inl h)

theorem pyle_trans (a : List Char) :
    ∀ b c, pyle a b = true → pyle b c = true → pyle a c = true := by
  induction a with
  | nil => intro b c _ _; rfl
  | cons x xs ih =>
    intro b c hab hbc
    cases b with
    | nil => exact absurd hab (by simp [pyle])
    | cons y ys =>
      cases c with
      | nil => exact absurd hbc (by simp [pyle])
      | cons z zs =>
        rcases (pyle_cons ..).mp hab with h1 | ⟨h1, h1p⟩ <;>
          rcases (pyle_cons ..).mp hbc with h2 | ⟨h2, h2p⟩
        · exact (pyle_cons ..).mpr (Or.inl (lt_trans h1 h2))
        · exact (pyle_cons ..).mpr (Or.inl (h2 ▸ h1))
        · exact (pyle_cons ..).mpr (Or.inl (h1 ▸ h2))
        · exact (pyle_cons ..).mpr (Or.inr ⟨h1.trans h2, ih ys zs h1p h2p⟩)

theorem mergeRun_fst (rt_items : List (PyStr × RawItem)) (existing_items : List LocalItem) :
    (mergeRun rt_items existing_items).1 =
      List.insertionSort byNameLower
        ((rt_items.foldl
          (mergeStep (build_existing_by_name existing_items) (build_id_to_name rt_items))
          ([], {})).1) := rfl

theorem mergeRun_pairwise (rt_items : List (PyStr × RawItem))
    (existing_items : List LocalItem) :
    List.Pairwise byNameLower (mergeRun rt_items existing_items).1 := by
  rw [mergeRun_fst]
  haveI : IsTotal LocalItem byNameLower :=
    ⟨fun a b => pyle_total (a.name.map Char.toLower) (b.name.map Char.toLower)⟩
  haveI : IsTrans LocalItem byNameLower :=
    ⟨fun a b c => pyle_trans (a.name.map Char.toLower) (b.name.map Char.toLower)
      (c.name.map Char.toLower)⟩
  exact List.sorted_insertionSort byNameLower _


/-! ## The claims -/

/-- Claim C1, counterexample: the name `"!"` normalizes to the empty key, the
index contains no empty key, and yet `find_existing_item` returns the entry
`("ab", 0)` through the fuzzy fallback (distance 2 ≤ max(3, 0)), instead of
the absent result the claim demands. -/
theorem claim_C1_counterexample :
    normalize_name "!".data = [] ∧
    dictFind [("ab".data, 0)] (normalize_name "!".data) = none ∧
    find_existing_item "!".data [("ab".data, 0)] = some 0 :=
  ⟨by decide, by decide, by decide⟩

/-- Claim C1 (amended): `find_existing_item` has no empty-key guard, so a
name with an empty normalized key is still a fuzzy candidate; it returns
absent only under the additional assumption that every index key is longer
than 3 characters (an empty query is at distance `len(key)` from every key,
and the threshold for an empty query is 3). -/
theorem claim_C1_amended {α : Type} (name : PyStr) (index : List (PyStr × α))
    (hempty : normalize_name name = [])
    (hkeys : ∀ p ∈ index, 3 < p.1.length) :
    find_existing_item name index = none := by
  apply find_fuzzy_none
  · apply dictFind_eq_none_of
    intro p hp heq
    have h3 := hkeys p hp
    rw [heq, hempty] at h3
    simp at h3
  · intro p hp hok
    rw [hempty, lev_nil_left, fuzzyOk_iff] at hok
    have h3 := hkeys p hp
    rcases hok with hok | hok
    · omega
    · rw [List.length_nil] at hok
      omega

/-- Witness for the amended C1: a name normalizing to the empty key against
an index whose only key has length 4 yields absent. -/
theorem claim_C1_witness :
    find_existing_item "!".data [("abcd".data, 5)] = none :=
  claim_C1_amended "!".data [("abcd".data, 5)] (by decide) (by decide)

/-- Claim C2, counterexample: a record matching none of rules 1–4 whose
`recyclesInto` is non-empty but has no strictly-positive count still gets
recommendation `"Recycle"`, contradicting the claim's "if and only if at
least one strictly-positive count". -/
theorem claim_C2_counterexample :
    rawAllZeroRecycle.type.getD [] ∉ ["Key".data, "Quest Item".data] ∧
    rawAllZeroRecycle.type.getD [] ≠ "Valuable".data ∧
    rawAllZeroRecycle.rarity.getD "Common".data
      ∉ ["Rare".data, "Epic".data, "Legendary".data] ∧
    rawAllZeroRecycle.type.getD [] ∉ ["Quick Use".data, "Consumable".data] ∧
    (∀ p ∈ rawAllZeroRecycle.recyclesInto, p.2 ≤ 0) ∧
    auto_recommend rawAllZeroRecycle = "Recycle".data :=
  ⟨by decide, by decide, by decide, by decide, by decide, by decide⟩

/-- Claim C2 (amended): for a brand-new record matching none of rules 1–4,
the recommendation is `"Recycle"` if and only if its `recyclesInto` map is
non-empty — the counts are not inspected, so a non-empty all-zero
`recyclesInto` also yields `"Recycle"`. -/
theorem claim_C2_amended (item : RawItem)
    (h1 : item.type.getD [] ∉ ["Key".data, "Quest Item".data])
    (h2 : item.type.getD [] ≠ "Valuable".data)
    (h3 : item.rarity.getD "Common".data
      ∉ ["Rare".data, "Epic".data, "Legendary".data])
    (h4 : item.type.getD [] ∉ ["Quick Use".data, "Consumable".data]) :
    (auto_recommend item = "Recycle".data ↔ item.recyclesInto ≠ []) := by
  simp only [auto_recommend]
  rw [if_neg h1, if_neg h2, if_neg h3, if_neg h4]
  by_cases hr : item.recyclesInto = []
  · rw [if_neg (not_not.mpr hr)]
    constructor
    · intro hcontra
      by_cases hw : item.type.getD [] ∈ ["Weapon".data, "Armor".data,
          "Armor Plate".data, "Helmet Plate".data, "Attachment".data]
      · rw [if_pos hw] at hcontra
        exact absurd hcontra (by decide)
      · rw [if_neg hw] at hcontra
        exact absurd hcontra (by decide)
    · intro hne
      exact absurd hr hne
  · rw [if_pos hr]
    exact iff_of_true rfl hr

/-- Witness for the amended C2: the all-zero-counts record has a non-empty
`recyclesInto` and is recommended `"Recycle"`. -/
theorem claim_C2_witness :
    auto_recommend rawAllZeroRecycle = "Recycle".data ↔
      rawAllZeroRecycle.recyclesInto ≠ [] :=
  claim_C2_amended rawAllZeroRecycle (by decide) (by decide) (by decide) (by decide)

/-- Claim C3: when an existing record is present, `transform_item` copies the
five curator-owned fields verbatim from it, and the output's
`recycleValuePercent` equals the existing record's (copied when non-null,
null otherwise), regardless of the raw record. -/
theorem claim_C3 (rt : RawItem) (rmap : List (PyStr × PyStr)) (e : LocalItem) :
    (transform_item rt rmap (some e)).projectUses = e.projectUses ∧
    (transform_item rt rmap (some e)).workshopUses = e.workshopUses ∧
    (transform_item rt rmap (some e)).keepForQuests = e.keepForQuests ∧
    (transform_item rt rmap (some e)).questUses = e.questUses ∧
    (transform_item rt rmap (some e)).recommendation = e.recommendation ∧
    (transform_item rt rmap (some e)).recycleValuePercent = e.recycleValuePercent := by
  refine ⟨rfl, rfl, rfl, rfl, rfl, ?_⟩
  show (if e.recycleValuePercent ≠ none then e.recycleValuePercent else none)
      = e.recycleValuePercent
  cases e.recycleValuePercent <;> simp

/-- Claim C4: a fuzzy candidate is accepted only if its Levenshtein distance
to the normalized query is within `max(3, 0.2 * len)`; for a normalized query
of length 10, distance 2 is matched (sole candidate) and distance 4 is out of
threshold, hence never matched. -/
theorem claim_C4 :
    (∀ (α : Type) (name : PyStr) (index : List (PyStr × α)) (a : α),
        dictFind index (normalize_name name) = none →
        find_existing_item name index = some a →
        ∃ (k : PyStr) (l1 l2 : List (PyStr × α)), index = l1 ++ (k, a) :: l2 ∧
          fuzzyOk (normalize_name name).length
            (levenshtein_distance (normalize_name name) k)) ∧
    ¬ fuzzyOk 10 4 ∧
    ((normalize_name "abcdefghij".data).length = 10 ∧
      levenshtein_distance "abcdefghij".data "abcdefghxy".data = 2 ∧
      find_existing_item "abcdefghij".data [("abcdefghxy".data, 1)] = some 1) ∧
    (levenshtein_distance "abcdefghij".data "abcdefwxyz".data = 4 ∧
      find_existing_item "abcdefghij".data [("abcdefwxyz".data, 1)] = none) := by
  refine ⟨?_, by decide, ⟨by decide, by decide, by decide⟩, by decide, by decide⟩
  intro α name index a hex h
  obtain ⟨l1, k, l2, hsplit, hok, -, -⟩ := find_fuzzy_some name index a hex h
  exact ⟨k, l1, l2, hsplit, hok⟩

/-- Witness for C4: the accepted sole candidate at distance 2 for the
length-10 query is within threshold. -/
theorem claim_C4_witness :
    ∃ (k : PyStr) (l1 l2 : List (PyStr × Nat)),
      ([("abcdefghxy".data, 1)] : List (PyStr × Nat)) = l1 ++ (k, 1) :: l2 ∧
      fuzzyOk (normalize_name "abcdefghij".data).length
        (levenshtein_distance (normalize_name "abcdefghij".data) k) :=
  claim_C4.1 Nat "abcdefghij".data [("abcdefghxy".data, 1)] 1 (by decide) (by decide)

/-- Claim C5: when the fuzzy fallback produces a result, it is the entry of
minimal distance that occurs earliest in the index's iteration order — every
earlier in-threshold entry is strictly farther, and every later in-threshold
entry is no closer (equal-distance later entries are never selected). -/
theorem claim_C5 {α : Type} (name : PyStr) (index : List (PyStr × α)) (a : α)
    (hex : dictFind index (normalize_name name) = none)
    (hfind : find_existing_item name index = some a) :
    ∃ l1 k l2, index = l1 ++ (k, a) :: l2 ∧
      fuzzyOk (normalize_name name).length
        (levenshtein_distance (normalize_name name) k) ∧
      (∀ p ∈ l1, fuzzyOk (normalize_name name).length
          (levenshtein_distance (normalize_name name) p.1) →
        levenshtein_distance (normalize_name name) k
          < levenshtein_distance (normalize_name name) p.1) ∧
      (∀ p ∈ l2, fuzzyOk (normalize_name name).length
          (levenshtein_distance (normalize_name name) p.1) →
        levenshtein_distance (normalize_name name) k
          ≤ levenshtein_distance (normalize_name name) p.1) :=
  find_fuzzy_some name index a hex hfind

/-- Witness for C5: two candidates at the same distance 2; the first one in
index order is returned. -/
theorem claim_C5_witness :
    ∃ l1 k l2, ([("abcdefghxx".data, 1), ("abcdefghyy".data, 2)] : List (PyStr × Nat))
        = l1 ++ (k, 1) :: l2 ∧
      fuzzyOk (normalize_name "abcdefghij".data).length
        (levenshtein_distance (normalize_name "abcdefghij".data) k) ∧
      (∀ p ∈ l1, fuzzyOk (normalize_name "abcdefghij".data).length
          (levenshtein_distance (normalize_name "abcdefghij".data) p.1) →
        levenshtein_distance (normalize_name "abcdefghij".data) k
          < levenshtein_distance (normalize_name "abcdefghij".data) p.1) ∧
      (∀ p ∈ l2, fuzzyOk (normalize_name "abcdefghij".data).length
          (levenshtein_distance (normalize_name "abcdefghij".data) p.1) →
        levenshtein_distance (normalize_name "abcdefghij".data) k
          ≤ levenshtein_distance (normalize_name "abcdefghij".data) p.1) :=
  claim_C5 "abcdefghij".data [("abcdefghxx".data, 1), ("abcdefghyy".data, 2)] 1
    (by decide) (by decide)

/-- Claim C6: the output's `recycleOutputs` is absent exactly when the raw
`recyclesInto` has no strictly-positive count (in particular when it is
empty), and is never the empty mapping; when present it contains only
strictly-positive counts under resolved display names, and covers every
positive raw entry's resolved name. -/
theorem claim_C6 (rt : RawItem) (rmap : List (PyStr × PyStr)) (ex : Option LocalItem) :
    ((transform_item rt rmap ex).recycleOutputs = none ↔
      ∀ q ∈ rt.recyclesInto, q.2 ≤ 0) ∧
    (∀ m, (transform_item rt rmap ex).recycleOutputs = some m →
      m ≠ [] ∧
      (∀ p ∈ m, 0 < p.2 ∧ ∃ id, (id, p.2) ∈ rt.recyclesInto ∧
        id_to_display_name id rmap = p.1) ∧
      (∀ q ∈ rt.recyclesInto, 0 < q.2 →
        ∃ u, (id_to_display_name q.1 rmap, u) ∈ m)) := by
  rw [transform_item_recycleOutputs]
  constructor
  · by_cases hni : rt.recyclesInto = []
    · rw [if_neg (not_not.mpr hni)]
      simp [hni]
    · rw [if_pos hni]
      by_cases hb : buildRecycleOutputs rt.recyclesInto rmap = []
      · rw [if_pos hb, buildRecycleOutputs] at *
        exact iff_of_true rfl (recFold_nil rmap rt.recyclesInto [] hb).2
      · rw [if_neg hb]
        constructor
        · intro hcontra
          exact absurd hcontra (by simp)
        · intro hall
          exfalso
          apply hb
          rw [buildRecycleOutputs]
          exact recFold_id_of_nonpos rmap rt.recyclesInto [] hall
  · intro m hm
    by_cases hni : rt.recyclesInto = []
    · rw [if_neg (not_not.mpr hni)] at hm
      exact absurd hm (by simp)
    · rw [if_pos hni] at hm
      by_cases hb : buildRecycleOutputs rt.recyclesInto rmap = []
      · rw [if_pos hb] at hm
        exact absurd hm (by simp)
      · rw [if_neg hb] at hm
        have hmb := Option.some.inj hm
        subst hmb
        refine ⟨hb, ?_, ?_⟩
        · intro p hp
          rw [buildRecycleOutputs] at hp
          rcases recFold_mem rmap rt.recyclesInto [] p hp with habs | ⟨id, hid, hpos, hres⟩
          · exact absurd habs (List.not_mem_nil p)
          · exact ⟨hpos, id, hid, hres⟩
        · intro q hq hpos
          rw [buildRecycleOutputs]
          exact recFold_covers rmap rt.recyclesInto [] q hq hpos

/-- Witness for C6 at a concrete mixed record: one positive entry and one
zero entry give a present output dropping the zero entry. -/
theorem claim_C6_witness :
    ((transform_item rawMixedRecycle [] none).recycleOutputs = none ↔
      ∀ q ∈ rawMixedRecycle.recyclesInto, q.2 ≤ 0) ∧
    (∀ m, (transform_item rawMixedRecycle [] none).recycleOutputs = some m →
      m ≠ [] ∧
      (∀ p ∈ m, 0 < p.2 ∧ ∃ id, (id, p.2) ∈ rawMixedRecycle.recyclesInto ∧
        id_to_display_name id [] = p.1) ∧
      (∀ q ∈ rawMixedRecycle.recyclesInto, 0 < q.2 →
        ∃ u, (id_to_display_name q.1 [], u) ∈ m)) :=
  claim_C6 rawMixedRecycle [] none

/-- Claim C7: when the normalized key has an exact hit in the index,
`find_existing_item` returns that entry, whatever the other entries are. -/
theorem claim_C7 :
    (∀ (α : Type) (name : PyStr) (index : List (PyStr × α)) (it : α),
        dictFind index (normalize_name name) = some it →
        find_existing_item name index = some it) ∧
    find_existing_item "Iron Plate".data
      [("ironplate".data, 1), ("ironplatex".data, 2)] = some 1 :=
  ⟨fun _ name index it h => find_exact name index it h, by decide⟩

/-- Witness for C7: the spec's own exact-precedence scenario, where the
fuzzy-eligible key `"ironplatex"` is ignored in favour of the exact key. -/
theorem claim_C7_witness :
    dictFind [("ironplate".data, 1), ("ironplatex".data, 2)]
      (normalize_name "Iron Plate".data) = some 1 ∧
    find_existing_item "Iron Plate".data
      [("ironplate".data, 1), ("ironplatex".data, 2)] = some 1 :=
  ⟨by decide, claim_C7.1 Nat "Iron Plate".data
    [("ironplate".data, 1), ("ironplatex".data, 2)] 1 (by decide)⟩

/-- Claim C8: the merged catalog is pairwise sorted by lower-cased name
(Python string `<=` on the lower-cased names), and the three-name example
comes out in the order Apple Seed, mango, Zed Core. -/
theorem claim_C8 :
    (∀ (rt_items : List (PyStr × RawItem)) (existing_items : List LocalItem),
      List.Pairwise byNameLower (mergeRun rt_items existing_items).1) ∧
    ((mergeRun rawOrderItems []).1.map (fun it => it.name))
      = ["Apple Seed".data, "mango".data, "Zed Core".data] :=
  ⟨mergeRun_pairwise, by decide⟩

/-- Claim C9: `levenshtein_distance` is zero on equal strings, symmetric, and
equals the other string's length when either argument is empty (in
particular `distance("", "abc") = 3`). -/
theorem claim_C9 :
    (∀ a : PyStr, levenshtein_distance a a = 0) ∧
    (∀ a b : PyStr, levenshtein_distance a b = levenshtein_distance b a) ∧
    (∀ b : PyStr, levenshtein_distance [] b = b.length) ∧
    (∀ a : PyStr, levenshtein_distance a [] = a.length) ∧
    levenshtein_distance "".data "abc".data = 3 :=
  ⟨lev_self, lev_comm, lev_nil_left, lev_nil_right, by decide⟩

/-- Claim C10: the `existing` argument cannot influence the ten canonical
fields of `transform_item`'s output — with or without an existing record the
outputs agree on name, category, rarity, value, description, weight,
stackSize, recycleOutputs, foundIn and imageUrl. -/
theorem claim_C10 (rt : RawItem) (rmap : List (PyStr × PyStr)) (e : LocalItem) :
    (transform_item rt rmap (some e)).name = (transform_item rt rmap none).name ∧
    (transform_item rt rmap (some e)).category = (transform_item rt rmap none).category ∧
    (transform_item rt rmap (some e)).rarity = (transform_item rt rmap none).rarity ∧
    (transform_item rt rmap (some e)).value = (transform_item rt rmap none).value ∧
    (transform_item rt rmap (some e)).description
      = (transform_item rt rmap none).description ∧
    (transform_item rt rmap (some e)).weight = (transform_item rt rmap none).weight ∧
    (transform_item rt rmap (some e)).stackSize
      = (transform_item rt rmap none).stackSize ∧
    (transform_item rt rmap (some e)).recycleOutputs
      = (transform_item rt rmap none).recycleOutputs ∧
    (transform_item rt rmap (some e)).foundIn = (transform_item rt rmap none).foundIn ∧
    (transform_item rt rmap (some e)).imageUrl = (transform_item rt rmap none).imageUrl :=
  ⟨rfl, rfl, rfl, rfl, rfl, rfl, rfl, rfl, rfl, rfl⟩
